import Mathlib

/-!
# Verification of the 11c.dev AVL Balanced Binary Search Tree (C++)

A shallow embedding of `src/AVLTree.h` (`AVLTree<TKey, TValue>`),
`src/AVLTreeNode.h` (`AVLTreeNode`) and `src/MapEntry.h` (`MapEntry`),
instantiated at `TKey = TValue = Int` (the demonstration driver uses `int`
keys).

Modelling conventions:

* A heap node `AVLTreeNode` is `Tree.node key value left right height`;
  the null pointer is `Tree.nil`.  The `height` argument is the node's
  *cached* `height_` field, exactly as stored in the C++ object; it is only
  changed where the code calls `CalculateHeight()`.
* The explicit ancestor stacks which `Add`/`Remove` build during the
  downward search (the nodes still own their other child while being on the
  stack) are modelled as lists of `Frame`s: the node's fields minus the
  child slot that was followed, plus the direction that was followed.
* In-place pointer mutation becomes functional reconstruction along the
  frame list.  Rotations reattach the new subtree root to the parent by the
  key comparison the code performs (`left_node->GetKey() < parent->GetKey()`),
  which may in principle differ from the slot that was descended through
  when the tree is already corrupted; in that case `reattach` renders the
  resulting heap as faithfully as a tree can (the parent's other slot is
  overwritten and its descended slot keeps the in-place-mutated old node).
  Such a mismatch is only reachable after undefined behaviour (use of a
  node freed by `Remove`), where the C++ source has no defined meaning.
* `Remove`'s case 1 contains a defect that this embedding reproduces
  exactly: both branches of the parent rewiring call `parent->SetRight`
  (lines 295-299), so when the removed node is its parent's *left* child
  the parent's right subtree is overwritten and the removed node stays
  linked through the parent's left pointer.  The removed node's children
  are nulled (lines 388-389) before it is freed, and the rebalancing pass
  reads only its stale cached height, so it is rendered as a childless
  node carrying its stale `height_`.
-/

namespace AVLTree

/-- Heap rendering of `AVLTreeNode<int, int>`: `nil` is the null pointer,
`node key value left right height` is a node object whose `height_` cache
currently holds `height`. -/
inductive Tree where
  | nil : Tree
  | node (key value : Int) (left right : Tree) (height : Int) : Tree
  deriving Repr, DecidableEq

/-- `MapEntry<TKey, TValue>` from `MapEntry.h`. -/
structure MapEntry where
  key : Int
  value : Int
  deriving Repr, DecidableEq

/-- The typed failures surfaced by the tree: `Add` throws
`std::range_error("! Key already exists in Tree !")` and `GetNode` throws
`std::range_error("! Key {} not present in Tree !")`. -/
inductive TreeError where
  | duplicateKey : TreeError
  | keyNotFound : TreeError
  deriving Repr, DecidableEq

/-- The height a child slot contributes:
`(child == nullptr) ? -1 : child->GetHeight()` — the cached height of the
node, `-1` for the null pointer. -/
def childHeight : Tree → Int
  | .nil => -1
  | .node _ _ _ _ h => h

/-- `AVLTreeNode::GetBalanceFactor`: cached height of the left child minus
cached height of the right child (absent children count `-1`).  The code
never invokes it on a null pointer; we return `0` there. -/
def getBalanceFactor : Tree → Int
  | .nil => 0
  | .node _ _ l r _ => childHeight l - childHeight r

/-- `AVLTreeNode::CalculateHeight`: recompute and cache this node's height
from its children's *cached* heights, `height_ = (r > l) ? r + 1 : l + 1`. -/
def calculateHeight : Tree → Tree
  | .nil => .nil
  | .node k v l r _ =>
    .node k v l r (if childHeight r > childHeight l then childHeight r + 1 else childHeight l + 1)

/-- Key of a node (`GetKey`); dummy `0` for the null pointer, never used. -/
def keyOf : Tree → Int
  | .nil => 0
  | .node k _ _ _ _ => k

/-- Left child pointer (`GetLeft`). -/
def leftOf : Tree → Tree
  | .nil => .nil
  | .node _ _ l _ _ => l

/-- Right child pointer (`GetRight`). -/
def rightOf : Tree → Tree
  | .nil => .nil
  | .node _ _ _ r _ => r

/-- Number of node objects in a subtree. -/
def sizeT : Tree → Nat
  | .nil => 0
  | .node _ _ l r _ => sizeT l + sizeT r + 1

/-- In-order listing of the key/value pairs stored in a subtree. -/
def entries : Tree → List (Int × Int)
  | .nil => []
  | .node k v l r _ => entries l ++ (k, v) :: entries r

/-- In-order listing of the keys stored in a subtree. -/
def keysOf (t : Tree) : List Int := (entries t).map Prod.fst

/-- The *actual* height of the subtree (recomputed, ignoring caches):
`-1` for the null pointer, `1 + max` of the children otherwise. -/
def realHeight : Tree → Int
  | .nil => -1
  | .node _ _ l r _ => 1 + max (realHeight l) (realHeight r)

/-- The AVL balance invariant on actual (recomputed) heights: at every
node, `|height(left) − height(right)| ≤ 1`. -/
def balancedReal : Tree → Bool
  | .nil => true
  | .node _ _ l r _ =>
    (realHeight l - realHeight r ≤ 1 && realHeight r - realHeight l ≤ 1)
      && balancedReal l && balancedReal r

/-- All keys of a subtree satisfy a (decidable) bound. -/
def allKeys (p : Int → Bool) : Tree → Bool
  | .nil => true
  | .node k _ l r _ => p k && allKeys p l && allKeys p r

/-- The binary-search-tree ordering invariant: at every node, all keys of
the left subtree are strictly smaller and all keys of the right subtree
strictly larger than the node's key. -/
def ordered : Tree → Bool
  | .nil => true
  | .node k _ l r _ =>
    allKeys (fun x => x < k) l && allKeys (fun x => k < x) r && ordered l && ordered r

/-- The `AVLTree` object: root pointer plus the `count_` field. -/
structure State where
  root : Tree
  count : Int
  deriving Repr, DecidableEq

/-- The default constructor `AVLTree()`: null root, zero count. -/
def initialState : State := { root := .nil, count := 0 }

/-- `AVLTree::GetCount`. -/
def getCount (s : State) : Int := s.count

/-- `AVLTree::GetTreeHieight` (sic): the root's cached height, `0` for an
empty tree. -/
def getTreeHieight (s : State) : Int :=
  match s.root with
  | .nil => 0
  | t => childHeight t

/-- `AVLTree::GetTreeBalanceFactor`: the root's balance factor, `0` for an
empty tree. -/
def getTreeBalanceFactor (s : State) : Int :=
  match s.root with
  | .nil => 0
  | t => getBalanceFactor t

/-- `AVLTree::Clear`: null the root and reset the count. -/
def clearTree (_s : State) : State := { root := .nil, count := 0 }

/-- `AVLTree::GetNode`: iterative BST search from the root; returns (a copy
of) the found node, throws `KeyNotFound` when the search reaches a null
pointer.  The loop `current->GetKey() < key → right, else → left` becomes
structural recursion. -/
def getNode : Tree → Int → Except TreeError Tree
  | .nil, _ => .error .keyNotFound
  | .node k v l r h, key =>
    if k == key then .ok (.node k v l r h)
    else if k < key then getNode r key
    else getNode l key

/-- `AVLTree::Get`: `GetNode(key).GetMapEntry()`. -/
def get (t : Tree) (key : Int) : Except TreeError MapEntry :=
  match getNode t key with
  | .error e => .error e
  | .ok .nil => .error .keyNotFound
  | .ok (.node k v _ _ _) => .ok ⟨k, v⟩

/-- `AVLTree::GetMinKey`: `return nullptr` on an empty tree (a sentinel,
modelled as `none`), otherwise walk all-left and return that key. -/
def getMinKey (s : State) : Option Int :=
  match s.root with
  | .nil => none
  | t => some (minWalk t)
where
  /-- the `while (current->GetLeft() != nullptr)` descent -/
  minWalk : Tree → Int
    | .nil => 0
    | .node k _ .nil _ _ => k
    | .node _ _ (.node k v l r h) _ _ => minWalk (.node k v l r h)

/-- `AVLTree::GetMaxKey`: `return nullptr` on an empty tree (a sentinel,
modelled as `none`), otherwise walk all-right and return that key. -/
def getMaxKey (s : State) : Option Int :=
  match s.root with
  | .nil => none
  | t => some (maxWalk t)
where
  /-- the `while (current->GetRight() != nullptr)` descent -/
  maxWalk : Tree → Int
    | .nil => 0
    | .node k _ _ .nil _ => k
    | .node _ _ _ (.node k v l r h) _ => maxWalk (.node k v l r h)

/-- Which child pointer of an ancestor the downward search followed. -/
inductive Dir where
  | left : Dir
  | right : Dir
  deriving Repr, DecidableEq

/-- One entry of the explicit ancestor stack (`my_stack`): the fields of a
node object whose `dir` child slot is currently being rebuilt.  `sib` is
the other (untouched) child, `hgt` the node's cached `height_`. -/
structure Frame where
  key : Int
  value : Int
  sib : Tree
  dir : Dir
  hgt : Int
  deriving Repr, DecidableEq

/-- Reconstitute the ancestor's node object with `c` in its followed
child slot. -/
def plug (f : Frame) (c : Tree) : Tree :=
  match f.dir with
  | .left => .node f.key f.value c f.sib f.hgt
  | .right => .node f.key f.value f.sib c f.hgt

/-- The subtree surgery of `AVLTree::RotateRight` (lines 397-402):
`left_node = node->GetLeft(); node->SetLeft(left_node->GetRight());
left_node->SetRight(node); node->CalculateHeight();
left_node->CalculateHeight();`.  Returns the new subtree root
(`left_node`) together with the in-place-mutated old node object, which
the new root holds as its right child.  The code only calls this when
`node` has a left child (guarded by a balance factor `> 1`); the
fall-through case is unreachable. -/
def rotateRightSub : Tree → Tree × Tree
  | .node k v (.node lk lv ll lr lh) r h =>
    let nodeAfter := calculateHeight (.node k v lr r h)
    (calculateHeight (.node lk lv ll nodeAfter lh), nodeAfter)
  | t => (t, t)

/-- The subtree surgery of `AVLTree::RotateLeft` (lines 416-421), mirror
of `rotateRightSub`. -/
def rotateLeftSub : Tree → Tree × Tree
  | .node k v l (.node rk rv rl rr rh) h =>
    let nodeAfter := calculateHeight (.node k v l rl h)
    (calculateHeight (.node rk rv nodeAfter rr rh), nodeAfter)
  | t => (t, t)

/-- The parent rewiring of `RotateRight`/`RotateLeft` (lines 404-411 /
423-430) for a non-null parent, popped as a `Frame`: the new subtree root
`nr` is attached to the parent's *left* slot when `nr`'s key is smaller
than the parent's key and to the *right* slot otherwise.  When the chosen
slot is the slot that was descended through, this replaces the carried
subtree; otherwise (unreachable without prior undefined behaviour) the
parent's other child is overwritten while its descended slot keeps the
in-place-mutated old node `resid`.  Returns the updated frame and the
subtree its followed slot now holds. -/
def reattach (nr resid : Tree) (f : Frame) : Frame × Tree :=
  if keyOf nr < f.key then
    match f.dir with
    | .left => (f, nr)
    | .right => ({ f with sib := nr }, resid)
  else
    match f.dir with
    | .right => (f, nr)
    | .left => ({ f with sib := nr }, resid)

/-- Lines 230-231 / 376-377: `RotateLeft(current->GetLeft(), current)` —
the first half of a left-right double rotation.  The parent is `current`
itself, so the rewiring happens among its own child slots. -/
def rotateLeftOfLeftChild (cur : Tree) : Tree :=
  match cur with
  | .node k v l r h =>
    let p := rotateLeftSub l
    if keyOf p.1 < k then .node k v p.1 r h else .node k v p.2 p.1 h
  | .nil => .nil

/-- Lines 234-235 / 380-381: `RotateRight(current->GetRight(), current)` —
the first half of a right-left double rotation. -/
def rotateRightOfRightChild (cur : Tree) : Tree :=
  match cur with
  | .node k v l r h =>
    let p := rotateRightSub r
    if keyOf p.1 < k then .node k v p.1 p.2 h else .node k v l p.1 h
  | .nil => .nil

/-- The bottom-up rebalancing loop shared by `Add` (lines 226-239) and
`Remove` (lines 372-385): pop each stacked node, recompute its cached
height, and when its balance factor leaves `[-1, 1]` apply a (possibly
double) rotation, rewiring the next stacked ancestor (or the tree root
when the stack holds only the null sentinel).  `cur` is the subtree whose
root the next ancestor's followed pointer currently targets.

The code pushes the *parent* of the freshly attached / promoted node as
the deepest stack entry and starts the loop there; we instead start one
level deeper at the carried subtree itself, which only adds a no-op step
(its cached height is already correct — the code itself re-pushes such
nodes in `Remove` — and a freshly recomputed node is never rotated twice).
A `nil` carried subtree (promoting an absent child) contributes height
`-1` and balance factor `0` and is likewise skipped, matching the code,
which never stacks null pointers above the sentinel.

`rebalanceResult` is the body of one loop iteration after the height
recomputation: `some (newRoot, residual)` when a rotation fired (the pair
produced by the final single rotation), `none` otherwise. -/
def rebalanceResult (cur : Tree) : Option (Tree × Tree) :=
  let cur1 := calculateHeight cur
  if getBalanceFactor cur1 > 1 then
    let cur2 := if getBalanceFactor (leftOf cur1) < 0 then rotateLeftOfLeftChild cur1 else cur1
    some (rotateRightSub cur2)
  else if getBalanceFactor cur1 < -1 then
    let cur2 := if getBalanceFactor (rightOf cur1) > 0 then rotateRightOfRightChild cur1 else cur1
    some (rotateLeftSub cur2)
  else none

/-- The rebalancing loop itself: each iteration recomputes the popped
node's cached height, applies `rebalanceResult`, and when a rotation
fired rewires the next ancestor (or the tree root when the remaining
stack holds only the null sentinel) to the new subtree root. -/
def unwind : Tree → List Frame → Tree
  | cur, [] =>
    match rebalanceResult cur with
    | none => calculateHeight cur
    | some p => p.1
  | cur, f :: rest =>
    match rebalanceResult cur with
    | none => unwind (plug f (calculateHeight cur)) rest
    | some p => unwind (plug (reattach p.1 p.2 f).1 (reattach p.1 p.2 f).2) rest

/-- The downward search of `AVLTree::Add` (lines 196-210): push each
visited node, throw on an equal key, go right when the new key is larger
and left when it is smaller.  Returns the ancestor stack, innermost
first. -/
def addDescend (key : Int) : Tree → List Frame → Except TreeError (List Frame)
  | .nil, path => .ok path
  | .node k v l r h, path =>
    if key == k then .error .duplicateKey
    else if key > k then
      addDescend key r ({ key := k, value := v, sib := l, dir := .right, hgt := h } :: path)
    else
      addDescend key l ({ key := k, value := v, sib := r, dir := .left, hgt := h } :: path)

/-- `AVLTree::Add`: on success the new leaf (fresh node, cached height
`0`) is attached to the last visited node — the attachment comparison at
lines 217-222 repeats the final descent comparison, i.e. plugs the leaf
into the followed slot, which is the first step of `unwind` — the count is
incremented, and the ancestor trail is rebalanced bottom-up.  A duplicate
key throws before any mutation. -/
def add (s : State) (key vl : Int) : Except TreeError State :=
  match addDescend key s.root [] with
  | .error e => .error e
  | .ok frames => .ok { root := unwind (.node key vl .nil .nil 0) frames, count := s.count + 1 }

/-- The downward search of `AVLTree::Remove` (lines 260-270): stop at a
null pointer or at the matching key, pushing the visited ancestors.
Returns the matched node's fields and the ancestor stack. -/
def removeDescend (key : Int) : Tree → List Frame →
    Option (Int × Int × Tree × Tree × Int × List Frame)
  | .nil, _ => none
  | .node k v l r h, path =>
    if k == key then some (k, v, l, r, h, path)
    else if key > k then
      removeDescend key r ({ key := k, value := v, sib := l, dir := .right, hgt := h } :: path)
    else
      removeDescend key l ({ key := k, value := v, sib := r, dir := .left, hgt := h } :: path)

/-- Case 3 helper (lines 332-350): walk the left spine of the removed
node's right child down to the leftmost node's parent, recording each
passed spine node (they are queued and later pushed onto the rebalance
stack).  Returns the spine frames (deepest first), the leftmost's parent
rebuilt with the leftmost's right child in its left slot (line 350), and
the leftmost node's key, value and cached height.  Only called when the
right child has a left child; the `nil` case is unreachable. -/
def succExtract : Tree → List Frame × Tree × Int × Int × Int
  | .node k v (.node lk lv .nil lr lh) r h =>
    ([], .node k v lr r h, lk, lv, lh)
  | .node k v (.node lk lv (.node a b c d e) lr lh) r h =>
    let q := succExtract (.node lk lv (.node a b c d e) lr lh)
    (q.1 ++ [{ key := k, value := v, sib := r, dir := .left, hgt := h }], q.2.1, q.2.2)
  | t => ([], t, 0, 0, 0)

/-- `AVLTree::Remove`: search for the key (returning the null sentinel and
leaving the tree untouched when absent, lines 272-273); otherwise
decrement the count, splice the node out by one of the three structural
cases, rebalance along the extended ancestor trail, and return the removed
entry.

Case 1 (no right child, lines 289-300) faithfully reproduces the source
defect: both branches of the parent rewiring call
`parent->SetRight(current->GetLeft())`, so when the removed node was the
parent's *left* child the parent's right subtree is overwritten and the
removed node remains linked through the parent's left pointer; it is
rendered childless (its children are nulled at lines 388-389 before
`delete`) with its stale cached height, which is all the rebalancing pass
reads of it. -/
def remove (s : State) (key : Int) : Option MapEntry × State :=
  match removeDescend key s.root [] with
  | none => (none, s)
  | some (k, v, l, r, h, frames) =>
    let newRoot :=
      match r with
      | .nil =>
        match frames with
        | [] => unwind l []
        | f :: rest =>
          if f.key < k then unwind l (f :: rest)
          else unwind l ({ f with dir := .right, sib := .node k v .nil .nil h } :: rest)
      | .node rk rv .nil rr rh =>
        unwind (.node rk rv l rr rh) frames
      | .node rk rv (.node a b c d e) rr rh =>
        let q := succExtract (.node rk rv (.node a b c d e) rr rh)
        unwind q.2.1
          (q.1 ++ { key := q.2.2.1, value := q.2.2.2.1, sib := l, dir := .right,
                    hgt := q.2.2.2.2 } :: frames)
    (some ⟨k, v⟩, { root := newRoot, count := s.count - 1 })

/-- A call on the container's mutating interface. -/
inductive Op where
  | addOp (key vl : Int) : Op
  | removeOp (key : Int) : Op
  | clearOp : Op
  deriving Repr, DecidableEq

/-- Effect of one call on the tree object.  A thrown `Add` leaves the
object as it was (the exception is raised before any mutation); a `Remove`
miss returns the sentinel with the object untouched. -/
def applyOp (s : State) : Op → State
  | .addOp k v =>
    match add s k v with
    | .ok s1 => s1
    | .error _ => s
  | .removeOp k => (remove s k).2
  | .clearOp => clearTree s

/-- Run a sequence of calls. -/
def runOps (s : State) : List Op → State
  | [] => s
  | o :: rest => runOps (applyOp s o) rest

/-- `+1` for a successful `Add`, `-1` for a successful `Remove` (one that
returns an entry), `0` for a failed call; `Clear` is handled separately. -/
def successDelta (s : State) : Op → Int
  | .addOp k v => match add s k v with | .ok _ => 1 | .error _ => 0
  | .removeOp k => match (remove s k).1 with | some _ => -1 | none => 0
  | .clearOp => 0

/-- The number of successful `Add`s minus successful `Remove`s since the
last `Clear` (or since construction), computed from the call sequence
alone: a running tally that every `Clear` resets to zero. -/
def countSpec (acc : Int) (s : State) : List Op → Int
  | [] => acc
  | .clearOp :: rest => countSpec 0 (applyOp s .clearOp) rest
  | o :: rest => countSpec (acc + successDelta s o) (applyOp s o) rest

/-- `Iterator::StackLeftToNull` together with the preceding
`stack_.push(...)` (lines 477-478, 512-514): push `t`, then walk and push
its left descendants; a null `t` pushes nothing (the push guard at line
512 and the null check at line 556).  The list head is the stack top. -/
def stackLeft : Tree → List Tree → List Tree
  | .nil, acc => acc
  | .node k v l r h, acc => stackLeft l (.node k v l r h :: acc)

/-- `Iterator::StackRightToNull` with the preceding push, mirror of
`stackLeft`. -/
def stackRight : Tree → List Tree → List Tree
  | .nil, acc => acc
  | .node k v l r h, acc => stackRight r (.node k v l r h :: acc)

/-- Termination measure for the in-order machine: each stacked node will
contribute itself plus a walk of its right subtree. -/
def inOrderMeasure (stack : List Tree) : Nat :=
  (stack.map fun t => sizeT (rightOf t) + 1).sum

theorem stackLeft_measure (t : Tree) (acc : List Tree) :
    inOrderMeasure (stackLeft t acc) = sizeT t + inOrderMeasure acc := by
  induction t generalizing acc with
  | nil => simp [stackLeft, sizeT]
  | node k v l r h ihl ihr =>
    rw [stackLeft, ihl]
    simp [inOrderMeasure, sizeT, rightOf]
    omega

theorem stackRight_measure (t : Tree) (acc : List Tree) :
    ((stackRight t acc).map fun t => sizeT (leftOf t) + 1).sum =
      sizeT t + (acc.map fun t => sizeT (leftOf t) + 1).sum := by
  induction t generalizing acc with
  | nil => simp [stackRight, sizeT]
  | node k v l r h ihl ihr =>
    rw [stackRight, ihr]
    simp [sizeT, leftOf]
    omega

/-- The `InOrder` trace: the entries yielded by repeatedly executing
`MoveNext` (lines 511-519) from a given stack until the null sentinel is
popped.  Popping a node yields its entry, then its right child (when
non-null) and that child's left descendants are pushed. -/
def iterInOrder : List Tree → List (Int × Int)
  | [] => []
  | .nil :: rest => iterInOrder rest
  | .node k v l r h :: rest => (k, v) :: iterInOrder (stackLeft r rest)
  termination_by stack => inOrderMeasure stack
  decreasing_by
  · simp [inOrderMeasure]
  · have h1 := stackLeft_measure r rest
    simp [inOrderMeasure, rightOf] at h1 ⊢
    omega

/-- The `ReverseOrder` trace, mirror of `iterInOrder` (lines 521-529). -/
def iterReverse : List Tree → List (Int × Int)
  | [] => []
  | .nil :: rest => iterReverse rest
  | .node k v l r h :: rest => (k, v) :: iterReverse (stackRight l rest)
  termination_by stack => (stack.map fun t => sizeT (leftOf t) + 1).sum
  decreasing_by
  · simp
  · have h1 := stackRight_measure l rest
    simp [leftOf] at h1 ⊢
    omega

/-- The non-null children of a node, in enqueue order (left before right,
lines 495-500 / 536-541). -/
def kidsOf : Tree → List Tree
  | .nil => []
  | .node _ _ l r _ =>
    (match l with | .nil => [] | t => [t]) ++ (match r with | .nil => [] | t => [t])

/-- The `TopDown` trace from a queue of pending nodes: dequeue a node,
yield its entry, enqueue its non-null children (lines 531-545).  The
queue never holds null pointers; the `nil` case is unreachable. -/
def iterTopDown : List Tree → List (Int × Int)
  | [] => []
  | .nil :: rest => iterTopDown rest
  | .node k v l r h :: rest => (k, v) :: iterTopDown (rest ++ kidsOf (.node k v l r h))
  termination_by q => (q.map fun t => 2 * sizeT t + 1).sum
  decreasing_by
  · simp [sizeT]
  · cases l <;> cases r <;> simp [kidsOf, sizeT] <;> omega

/-- The full entry sequence produced by iterating from `begin()` to
`end()` in `InOrder` mode: `SetInitalLocation` (lines 474-480) pushes the
null sentinel, the root and the root's left descendants, pops the first
current node, and every `++` yields the next. -/
def traceInOrder (t : Tree) : List (Int × Int) := iterInOrder (stackLeft t [])

/-- The full entry sequence in `ReverseOrder` mode (lines 482-488). -/
def traceReverse (t : Tree) : List (Int × Int) := iterReverse (stackRight t [])

/-- The full entry sequence in `TopDown` mode: `SetInitalLocation`
(lines 490-502) makes the root itself current and enqueues its children,
so the trace is the queue machine started on the root alone; an empty
tree begins at `end()`. -/
def traceTopDown (t : Tree) : List (Int × Int) :=
  match t with
  | .nil => []
  | t => iterTopDown [t]

/-! ## Concrete scenarios

`demoSmall` inserts the keys 2, 1, 3 (value = 10 × key) into a fresh
tree; `demoWide` builds, by level-order insertion (which triggers no
rotations), a 13-node AVL tree whose left subtree has height 2 and whose
right subtree has height 3. -/

/-- Keys 2, 1, 3 added to a fresh tree. -/
def demoSmall : State :=
  runOps initialState [.addOp 2 20, .addOp 1 10, .addOp 3 30]

/-- A 13-key AVL tree: root 10, left subtree {5, 3, 7, 2} of height 2,
right subtree {20, 15, 25, 13, 17, 22, 27, 12} of height 3. -/
def demoWide : State :=
  runOps initialState
    [.addOp 10 100, .addOp 5 50, .addOp 20 200, .addOp 3 30, .addOp 7 70,
     .addOp 15 150, .addOp 25 250, .addOp 2 20, .addOp 13 130, .addOp 17 170,
     .addOp 22 220, .addOp 27 270, .addOp 12 120]

/-! ## C1 -/

/-- C1: refuted — `Remove` on a present key does return the stored entry,
but when the removed node has no right child and is its parent's *left*
child, the left child is **not** promoted into the removed node's slot:
both branches of the rewiring call `parent->SetRight` (line 298 repeats
line 296), so the parent's right subtree is overwritten and the removed
node stays linked.  Concretely: after adding 2, 1, 3 (count 3),
`Remove(1)` returns Entry{1, 10} yet the resulting key set is {1, 2} —
key 3 is lost and key 1 is still present — instead of {2, 3}. -/
theorem remove_no_right_child_loses_right_subtree :
    demoSmall.count = 3 ∧
    keysOf demoSmall.root = [1, 2, 3] ∧
    (remove demoSmall 1).1 = some ⟨1, 10⟩ ∧
    keysOf (remove demoSmall 1).2.root = [1, 2] := by
  refine ⟨by decide, by decide, by decide, by decide⟩

/-! ## C2 -/

/-- C2: refuted — a successful `Remove` can leave the tree violating the
AVL balance invariant on actual subtree heights.  In `demoWide`, key 3 is
the left child of node 5 and has no right child; `Remove(3)` takes the
defective case-1 branch, node 5's subtree collapses to actual height 1
while node 5's cached height stays 2 (computed through the removed node's
stale cache), so the rebalancing pass sees balance factor −1 at the root
and rotates nothing — yet the root's actual child heights are 1 and 3. -/
theorem remove_breaks_avl_balance :
    demoWide.count = 13 ∧
    balancedReal demoWide.root = true ∧
    (remove demoWide 3).1 = some ⟨3, 30⟩ ∧
    balancedReal (remove demoWide 3).2.root = false := by
  refine ⟨by decide, by decide, by decide, by decide⟩

/-! ## C9 -/

/-- C9: refuted — a successful `Remove(k)` can destroy the association of
a different key `k'`.  In the tree built from 2, 1, 3, the entry for key 3
is retrievable before `Remove(1)`; afterwards `Get(3)` fails with
`KeyNotFound`, because the case-1 rewiring overwrote the parent's right
subtree (which held key 3) with the removed node's left child. -/
theorem remove_changes_other_binding :
    get demoSmall.root 3 = .ok ⟨3, 30⟩ ∧
    (remove demoSmall 1).1 = some ⟨1, 10⟩ ∧
    get (remove demoSmall 1).2.root 3 = .error .keyNotFound := by
  refine ⟨by rfl, by decide, by rfl⟩

/-! ## C4 -/

/-- A key the BST search does not find is a key the removal search does
not find: `GetNode`'s loop and `Remove`'s loop follow the same
comparisons. -/
theorem getNode_miss_removeDescend (k : Int) :
    ∀ t path, getNode t k = .error .keyNotFound → removeDescend k t path = none := by
  intro t
  induction t with
  | nil => intro path _; rfl
  | node k0 v0 l r h0 ihl ihr =>
    intro path hg
    simp only [getNode] at hg
    simp only [removeDescend]
    by_cases he : k0 = k
    · simp [he] at hg
    · simp only [beq_iff_eq, he, if_false] at hg ⊢
      by_cases hlt : k0 < k
      · simp only [hlt, if_true] at hg
        simp only [gt_iff_lt, hlt, if_true]
        exact ihr _ hg
      · simp only [hlt, if_false] at hg
        simp only [gt_iff_lt, hlt, if_false]
        exact ihl _ hg

/-- C4: corrected — only `Get` fails with a typed error on an empty tree
(`GetNode` throws `KeyNotFound`).  `GetMinKey` and `GetMaxKey` on an empty
tree execute `return nullptr` — a null sentinel, not an error — and
`Remove` on an empty tree or with an absent key likewise returns the null
sentinel (`return nullptr`, line 273, behind the comment
`// Key not found, throw exception??`).  All of them do leave the tree's
structure and count unchanged. -/
theorem empty_and_missing_key_behavior :
    (∀ k, get Tree.nil k = Except.error TreeError.keyNotFound) ∧
    getMinKey initialState = none ∧ getMaxKey initialState = none ∧
    ∀ (s : State) (k : Int), getNode s.root k = .error .keyNotFound → remove s k = (none, s) := by
  refine ⟨fun _ => rfl, rfl, rfl, fun s k h => ?_⟩
  unfold remove
  rw [getNode_miss_removeDescend k s.root [] h]

/-- Witness for C4's amended statement at a concrete input: on the empty
tree, the key 5 is not found and `Remove(5)` returns the sentinel with the
state untouched. -/
theorem empty_and_missing_key_behavior_witness :
    getNode initialState.root 5 = .error .keyNotFound ∧
    remove initialState 5 = (none, initialState) :=
  ⟨by rfl, empty_and_missing_key_behavior.2.2.2 initialState 5 (by rfl)⟩

/-- C4 as stated is false: `GetMinKey`/`GetMaxKey` on the empty tree and
`Remove` of the absent key 5 on the empty tree do not fail with a typed
error — they return the null sentinel (`none`; the embedded result types
have no error channel because the source executes `return nullptr`). -/
theorem empty_tree_sentinel_counterexample :
    getMinKey initialState = none ∧ getMaxKey initialState = none ∧
    (remove initialState 5).1 = none ∧ (remove initialState 5).2 = initialState := by
  refine ⟨rfl, rfl, rfl, rfl⟩

/-! ## C5 -/

/-- Effect of a single call on the `count_` field: `Clear` zeroes it, a
successful `Add` adds one, a successful `Remove` subtracts one, and failed
calls leave it alone. -/
theorem applyOp_count (s : State) (o : Op) :
    (applyOp s o).count = match o with
      | .clearOp => 0
      | _ => s.count + successDelta s o := by
  cases o with
  | addOp k v =>
    simp only [applyOp, successDelta]
    cases haux : add s k v with
    | error e => simp
    | ok s1 =>
      have : s1.count = s.count + 1 := by
        unfold add at haux
        cases hd : addDescend k s.root [] <;> simp [hd] at haux
        rw [← haux]
      simp [this]
  | removeOp k =>
    simp only [applyOp, successDelta]
    cases haux : removeDescend k s.root [] with
    | none => simp [remove, haux]
    | some tup =>
      obtain ⟨k0, v0, l0, r0, h0, fr⟩ := tup
      simp [remove, haux]
      omega
  | clearOp => rfl

/-- The running-tally form of the count invariant, generalised over the
starting state. -/
theorem countSpec_runOps (ops : List Op) :
    ∀ (s : State) (acc : Int), s.count = acc → (runOps s ops).count = countSpec acc s ops := by
  induction ops with
  | nil => intro s acc h; simpa [runOps, countSpec] using h
  | cons o rest ih =>
    intro s acc h
    cases o with
    | addOp k v =>
      simp only [runOps, countSpec]
      refine ih _ _ ?_
      rw [applyOp_count, h]
    | removeOp k =>
      simp only [runOps, countSpec]
      refine ih _ _ ?_
      rw [applyOp_count, h]
    | clearOp =>
      simp only [runOps, countSpec]
      exact ih _ _ rfl

/-- C5: for every call sequence starting from a fresh tree, `GetCount()`
equals the number of successful `Add`s minus the number of successful
`Remove`s since the last `Clear` (or since construction); failed calls
contribute nothing and every `Clear` resets the tally to zero. -/
theorem count_invariant (ops : List Op) :
    getCount (runOps initialState ops) = countSpec 0 initialState ops :=
  countSpec_runOps ops initialState 0 rfl

/-! ## C3 -/

/-- A key the BST search finds is a key `Add`'s descent throws on:
`GetNode`'s loop and `Add`'s loop follow the same comparisons, and `Add`
raises `DuplicateKey` the moment it reaches the equal key. -/
theorem getNode_hit_addDescend (k : Int) :
    ∀ t path found, getNode t k = .ok found → addDescend k t path = .error .duplicateKey := by
  intro t
  induction t with
  | nil => intro path found h; exact absurd h (by simp [getNode])
  | node k0 v0 l r h0 ihl ihr =>
    intro path found hg
    simp only [getNode] at hg
    simp only [addDescend]
    by_cases he : k0 = k
    · simp [he.symm]
    · have hne : ¬(k = k0) := fun hh => he hh.symm
      simp only [beq_iff_eq, he, if_false] at hg
      simp only [beq_iff_eq, hne, if_false]
      by_cases hlt : k0 < k
      · simp only [hlt, if_true] at hg
        simp only [gt_iff_lt, hlt, if_true]
        exact ihr _ _ hg
      · simp only [hlt, if_false] at hg
        simp only [gt_iff_lt, hlt, if_false]
        exact ihl _ _ hg

/-- C3: for every tree state whose lookup finds key `k` bound to `v2`, a
subsequent `Add(k, v)` throws `DuplicateKey` (the exception is raised
during the descent, before any structural change or count update), the
tree object is unchanged, and the value stored under `k` afterwards is
still `v2`. -/
theorem add_duplicate_rejected (s : State) (k v v2 : Int)
    (h : get s.root k = .ok ⟨k, v2⟩) :
    add s k v = .error .duplicateKey ∧
    applyOp s (.addOp k v) = s ∧
    get (applyOp s (.addOp k v)).root k = .ok ⟨k, v2⟩ := by
  have hnode : ∃ found, getNode s.root k = .ok found := by
    unfold get at h
    cases hg : getNode s.root k with
    | error e => rw [hg] at h; cases h
    | ok t => exact ⟨t, rfl⟩
  obtain ⟨found, hf⟩ := hnode
  have hdup : add s k v = .error .duplicateKey := by
    unfold add
    rw [getNode_hit_addDescend k s.root [] found hf]
  have happ : applyOp s (.addOp k v) = s := by
    simp [applyOp, hdup]
  exact ⟨hdup, happ, by rw [happ]; exact h⟩

/-- Witness for C3 at a concrete input: after `Add(5, 7)` on a fresh tree,
key 5 is bound to 7, `Add(5, 9)` throws `DuplicateKey`, the state is
unchanged and key 5 is still bound to 7. -/
theorem add_duplicate_rejected_witness :
    get (applyOp initialState (.addOp 5 7)).root 5 = .ok ⟨5, 7⟩ ∧
    add (applyOp initialState (.addOp 5 7)) 5 9 = .error .duplicateKey ∧
    applyOp (applyOp initialState (.addOp 5 7)) (.addOp 5 9) = applyOp initialState (.addOp 5 7) :=
  ⟨by rfl,
   (add_duplicate_rejected (applyOp initialState (.addOp 5 7)) 5 9 7 (by rfl)).1,
   (add_duplicate_rejected (applyOp initialState (.addOp 5 7)) 5 9 7 (by rfl)).2.1⟩

/-! ## C7 -/

/-- Every entry of a subtree satisfying `allKeys p` has a key satisfying
`p`. -/
theorem allKeys_mem (p : Int → Bool) :
    ∀ t a b, allKeys p t = true → (a, b) ∈ entries t → p a = true := by
  intro t
  induction t with
  | nil => intro a b _ hm; simp [entries] at hm
  | node k v l r h ihl ihr =>
    intro a b hp hm
    simp only [allKeys, Bool.and_eq_true] at hp
    simp only [entries, List.mem_append, List.mem_cons] at hm
    rcases hm with hm | hm | hm
    · exact ihl a b hp.1.2 hm
    · rw [Prod.mk.injEq] at hm
      rw [hm.1]; exact hp.1.1
    · exact ihr a b hp.2 hm

/-- `Get` on a node: compare, then recurse right or left. -/
theorem get_node_eq (k0 v0 : Int) (l r : Tree) (h0 k : Int) :
    get (.node k0 v0 l r h0) k =
      if k0 = k then .ok ⟨k0, v0⟩ else if k0 < k then get r k else get l k := by
  by_cases he : k0 = k
  · simp [get, getNode, he]
  · by_cases hlt : k0 < k
    · simp only [he, if_false, hlt, if_true]
      show (match getNode (.node k0 v0 l r h0) k with
        | .error e => .error e
        | .ok .nil => Except.error TreeError.keyNotFound
        | .ok (.node k v _ _ _) => Except.ok ⟨k, v⟩) = get r k
      simp only [getNode, beq_iff_eq, he, if_false, hlt, if_true]
      rfl
    · simp only [he, if_false, hlt, if_false]
      show (match getNode (.node k0 v0 l r h0) k with
        | .error e => .error e
        | .ok .nil => Except.error TreeError.keyNotFound
        | .ok (.node k v _ _ _) => Except.ok ⟨k, v⟩) = get l k
      simp only [getNode, beq_iff_eq, he, if_false, hlt, if_false]
      rfl

/-- C7: on a tree satisfying the BST ordering invariant, `Get(k)` (which
descends left when the target is smaller than the current key and right
when it is larger — the shape of `getNode`) returns exactly the stored
entry `⟨k, v⟩` when `k` is present, and fails with `KeyNotFound` exactly
when `k` is absent.  `get` is a pure function of the tree, so the tree is
not modified. -/
theorem get_spec (t : Tree) (k : Int) (ho : ordered t = true) :
    (∀ v, ((k, v) ∈ entries t ↔ get t k = .ok ⟨k, v⟩)) ∧
    (k ∉ keysOf t ↔ get t k = .error .keyNotFound) := by
  induction t with
  | nil =>
    refine ⟨fun v => ?_, ?_⟩ <;> simp [entries, keysOf, get, getNode]
  | node k0 v0 l r h0 ihl ihr =>
    simp only [ordered, Bool.and_eq_true] at ho
    obtain ⟨⟨⟨hal, har⟩, hol⟩, hor⟩ := ho
    have ihl2 := ihl hol
    have ihr2 := ihr hor
    rw [get_node_eq]
    by_cases he : k0 = k
    · subst he
      rw [if_pos rfl]
      constructor
      · intro v
        constructor
        · intro hm
          simp only [entries, List.mem_append, List.mem_cons] at hm
          rcases hm with hm | hm | hm
          · exact absurd (allKeys_mem _ l k0 v hal hm) (by simp)
          · rw [Prod.mk.injEq] at hm
            rw [hm.2]
          · exact absurd (allKeys_mem _ r k0 v har hm) (by simp)
        · intro hok
          rw [Except.ok.injEq, MapEntry.mk.injEq] at hok
          simp only [entries, List.mem_append, List.mem_cons]
          exact Or.inr (Or.inl (by rw [hok.2]))
      · simp [keysOf, entries]
    · by_cases hlt : k0 < k
      · simp only [he, if_false, hlt, if_true]
        have hmem : ∀ v : Int, ((k, v) ∈ entries (Tree.node k0 v0 l r h0)) ↔ (k, v) ∈ entries r := by
          intro v
          simp only [entries, List.mem_append, List.mem_cons]
          constructor
          · rintro (hm | hm | hm)
            · have := allKeys_mem _ l k v hal hm
              simp at this; omega
            · rw [Prod.mk.injEq] at hm; exact absurd hm.1.symm he
            · exact hm
          · exact fun hm => Or.inr (Or.inr hm)
        refine ⟨fun v => (hmem v).trans (ihr2.1 v), ?_⟩
        have hkeys : (k ∈ keysOf (Tree.node k0 v0 l r h0)) ↔ k ∈ keysOf r := by
          simp only [keysOf, List.mem_map]
          constructor
          · rintro ⟨⟨a, b⟩, hm, hk⟩
            have hk2 : a = k := hk
            obtain rfl := hk2
            exact ⟨(a, b), (hmem b).mp hm, rfl⟩
          · rintro ⟨⟨a, b⟩, hm, hk⟩
            have hk2 : a = k := hk
            obtain rfl := hk2
            exact ⟨(a, b), (hmem b).mpr hm, rfl⟩
        rw [not_congr hkeys]
        exact ihr2.2
      · simp only [he, if_false, hlt, if_false]
        have hmem : ∀ v : Int, ((k, v) ∈ entries (Tree.node k0 v0 l r h0)) ↔ (k, v) ∈ entries l := by
          intro v
          simp only [entries, List.mem_append, List.mem_cons]
          constructor
          · rintro (hm | hm | hm)
            · exact hm
            · rw [Prod.mk.injEq] at hm; exact absurd hm.1.symm he
            · have := allKeys_mem _ r k v har hm
              simp at this; omega
          · exact fun hm => Or.inl hm
        refine ⟨fun v => (hmem v).trans (ihl2.1 v), ?_⟩
        have hkeys : (k ∈ keysOf (Tree.node k0 v0 l r h0)) ↔ k ∈ keysOf l := by
          simp only [keysOf, List.mem_map]
          constructor
          · rintro ⟨⟨a, b⟩, hm, hk⟩
            have hk2 : a = k := hk
            obtain rfl := hk2
            exact ⟨(a, b), (hmem b).mp hm, rfl⟩
          · rintro ⟨⟨a, b⟩, hm, hk⟩
            have hk2 : a = k := hk
            obtain rfl := hk2
            exact ⟨(a, b), (hmem b).mpr hm, rfl⟩
        rw [not_congr hkeys]
        exact ihl2.2

/-- Witness for C7 at a concrete input: `demoWide` satisfies the BST
invariant; key 13 is stored with value 130 and retrieved as such, and the
absent key 14 fails with `KeyNotFound`. -/
theorem get_spec_witness :
    ordered demoWide.root = true ∧
    ((13, 130) ∈ entries demoWide.root ↔ get demoWide.root 13 = .ok ⟨13, 130⟩) ∧
    ((14 : Int) ∉ keysOf demoWide.root ↔ get demoWide.root 14 = .error .keyNotFound) :=
  ⟨by decide,
   (get_spec demoWide.root 13 (by decide)).1 130,
   (get_spec demoWide.root 14 (by decide)).2⟩

/-! ## C6 -/

/-- The in-order machine consumes a pushed left spine by emitting the
subtree's entries in order. -/
theorem iterInOrder_stackLeft (t : Tree) :
    ∀ rest, iterInOrder (stackLeft t rest) = entries t ++ iterInOrder rest := by
  induction t with
  | nil => intro rest; simp [stackLeft, entries]
  | node k v l r h ihl ihr =>
    intro rest
    rw [stackLeft, ihl]
    have h2 : iterInOrder (Tree.node k v l r h :: rest)
        = (k, v) :: iterInOrder (stackLeft r rest) := by
      simp [iterInOrder]
    rw [h2, ihr]
    simp [entries]

/-- The reverse-order machine consumes a pushed right spine by emitting
the subtree's entries in descending order. -/
theorem iterReverse_stackRight (t : Tree) :
    ∀ rest, iterReverse (stackRight t rest) = (entries t).reverse ++ iterReverse rest := by
  induction t with
  | nil => intro rest; simp [stackRight, entries]
  | node k v l r h ihl ihr =>
    intro rest
    rw [stackRight, ihr]
    have h2 : iterReverse (Tree.node k v l r h :: rest)
        = (k, v) :: iterReverse (stackRight l rest) := by
      simp [iterReverse]
    rw [h2, ihl]
    simp [entries]

/-- Every key of a subtree satisfying `allKeys p` satisfies `p`. -/
theorem allKeys_keys (p : Int → Bool) (t : Tree) (a : Int)
    (hp : allKeys p t = true) (ha : a ∈ keysOf t) : p a = true := by
  simp only [keysOf, List.mem_map] at ha
  obtain ⟨⟨x, y⟩, hm, hk⟩ := ha
  have hk2 : x = a := hk
  rw [← hk2]
  exact allKeys_mem p t x y hp hm

/-- The key list of a node splits around its own key. -/
theorem keysOf_node (k v : Int) (l r : Tree) (h : Int) :
    keysOf (.node k v l r h) = keysOf l ++ k :: keysOf r := by
  simp [keysOf, entries]

/-- On a BST-ordered tree the in-order key list is strictly increasing. -/
theorem ordered_pairwise : ∀ t : Tree, ordered t = true →
    List.Pairwise (· < ·) (keysOf t) := by
  intro t
  induction t with
  | nil => intro _; simp [keysOf, entries]
  | node k v l r h ihl ihr =>
    intro ho
    simp only [ordered, Bool.and_eq_true] at ho
    obtain ⟨⟨⟨hal, har⟩, hol⟩, hor⟩ := ho
    rw [keysOf_node, List.pairwise_append]
    refine ⟨ihl hol, ?_, ?_⟩
    · rw [List.pairwise_cons]
      refine ⟨fun b hb => ?_, ihr hor⟩
      have := allKeys_keys _ r b har hb
      simpa using this
    · intro a ha b hb
      have ha2 : a < k := by simpa using allKeys_keys _ l a hal ha
      rcases List.mem_cons.mp hb with hb | hb
      · rw [hb]; exact ha2
      · have hb2 : k < b := by simpa using allKeys_keys _ r b har hb
        exact ha2.trans hb2

/-- Entry count equals node count. -/
theorem entries_length : ∀ t : Tree, (entries t).length = sizeT t := by
  intro t
  induction t with
  | nil => simp [entries, sizeT]
  | node k v l r h ihl ihr => simp [entries, sizeT, ihl, ihr]; omega

/-- The children enqueued for a node carry exactly the entries of its two
subtrees. -/
theorem kids_entries (k v : Int) (l r : Tree) (h : Int) :
    ((kidsOf (.node k v l r h)).map entries).flatten = entries l ++ entries r := by
  cases l <;> cases r <;> simp [kidsOf, entries]

/-- The level-order machine emits a permutation of the entries of the
queued subtrees. -/
theorem iterTopDown_perm_aux :
    ∀ (n : Nat) (q : List Tree), (q.map fun t => 2 * sizeT t + 1).sum ≤ n →
      (iterTopDown q).Perm ((q.map entries).flatten) := by
  intro n
  induction n with
  | zero =>
    intro q hq
    cases q with
    | nil => simp [iterTopDown]
    | cons t rest => simp at hq
  | succ n ih =>
    intro q hq
    cases q with
    | nil => simp [iterTopDown]
    | cons t rest =>
      cases t with
      | nil =>
        have h1 : iterTopDown (Tree.nil :: rest) = iterTopDown rest := by
          simp [iterTopDown]
        rw [h1]
        have h2 : ((Tree.nil :: rest).map entries).flatten = (rest.map entries).flatten := by
          simp [entries]
        rw [h2]
        refine ih rest ?_
        rw [List.map_cons, List.sum_cons] at hq
        simp only [sizeT] at hq
        omega
      | node k v l r h =>
        have h1 : iterTopDown (Tree.node k v l r h :: rest)
            = (k, v) :: iterTopDown (rest ++ kidsOf (.node k v l r h)) := by
          simp [iterTopDown]
        rw [h1]
        have hm : ((rest ++ kidsOf (.node k v l r h)).map (fun t => 2 * sizeT t + 1)).sum ≤ n := by
          have hk : ((kidsOf (.node k v l r h)).map (fun t => 2 * sizeT t + 1)).sum
              ≤ 2 * (sizeT l + sizeT r) + 2 := by
            cases l <;> cases r <;> simp [kidsOf, sizeT] <;> omega
          rw [List.map_append, List.sum_append]
          rw [List.map_cons, List.sum_cons] at hq
          simp only [sizeT] at hq
          omega
        have h3 := ih _ hm
        rw [List.map_append, List.flatten_append, kids_entries] at h3
        have h4 : ((Tree.node k v l r h :: rest).map entries).flatten
            = (entries l ++ (k, v) :: entries r) ++ (rest.map entries).flatten := by
          simp [entries]
        rw [h4]
        refine (h3.cons ((k, v))).trans ?_
        have h6 : ((rest.map entries).flatten ++ (entries l ++ entries r)).Perm
            ((entries l ++ entries r) ++ (rest.map entries).flatten) := List.perm_append_comm
        refine (h6.cons ((k, v))).trans ?_
        have heq : ((entries l ++ (k, v) :: entries r) ++ (rest.map entries).flatten)
            = entries l ++ (k, v) :: (entries r ++ (rest.map entries).flatten) := by
          simp
        rw [heq, List.append_assoc]
        exact List.perm_middle.symm

/-- C6: on a BST-ordered tree with `n` stored entries, the `InOrder`
iterator yields exactly the `n` stored entries in strictly increasing key
order; the `ReverseOrder` iterator yields the same entries in strictly
decreasing key order; the `TopDown` iterator yields every entry exactly
once (a permutation of the stored entries), breadth-first by construction
of its queue machine, with the root's entry first. -/
theorem traversal_spec (t : Tree) (ho : ordered t = true) :
    traceInOrder t = entries t ∧
    (traceInOrder t).length = sizeT t ∧
    List.Pairwise (· < ·) ((traceInOrder t).map Prod.fst) ∧
    traceReverse t = (entries t).reverse ∧
    List.Pairwise (· > ·) ((traceReverse t).map Prod.fst) ∧
    (traceTopDown t).Perm (entries t) ∧
    ∀ k v l r h, t = .node k v l r h → (traceTopDown t).head? = some (k, v) := by
  have hio : traceInOrder t = entries t := by
    unfold traceInOrder
    rw [iterInOrder_stackLeft]
    simp [iterInOrder]
  have hrev : traceReverse t = (entries t).reverse := by
    unfold traceReverse
    rw [iterReverse_stackRight]
    simp [iterReverse]
  have hpair : List.Pairwise (· < ·) ((entries t).map Prod.fst) :=
    ordered_pairwise t ho
  have htd : (traceTopDown t).Perm (entries t) := by
    cases t with
    | nil => simp [traceTopDown, entries]
    | node k v l r h =>
      show (iterTopDown [Tree.node k v l r h]).Perm (entries (.node k v l r h))
      have := iterTopDown_perm_aux (2 * sizeT (.node k v l r h) + 1) [.node k v l r h] (by simp)
      simpa using this
  refine ⟨hio, ?_, ?_, hrev, ?_, htd, ?_⟩
  · rw [hio]; exact entries_length t
  · rw [hio]; exact hpair
  · rw [hrev]
    rw [List.map_reverse, List.pairwise_reverse]
    exact hpair
  · intro k v l r h ht
    subst ht
    have h1 : iterTopDown [Tree.node k v l r h]
        = (k, v) :: iterTopDown ([] ++ kidsOf (.node k v l r h)) := by
      simp [iterTopDown]
    show (iterTopDown [Tree.node k v l r h]).head? = some (k, v)
    rw [h1]
    rfl

/-- Witness for C6 at a concrete input: `demoWide`'s tree is BST-ordered
and the traversal properties hold for it. -/
theorem traversal_spec_witness :
    ordered demoWide.root = true ∧
    traceInOrder demoWide.root = entries demoWide.root ∧
    (traceTopDown demoWide.root).Perm (entries demoWide.root) :=
  ⟨by decide,
   (traversal_spec demoWide.root (by decide)).1,
   (traversal_spec demoWide.root (by decide)).2.2.2.2.2.1⟩

/-! ## C8 -/

/-- `CalculateHeight` only rewrites the cached height, never the stored
entries. -/
theorem entries_calculateHeight : ∀ t : Tree, entries (calculateHeight t) = entries t := by
  intro t
  cases t with
  | nil => rfl
  | node k v l r h => rfl

/-- The subtree surgery of `RotateRight` preserves the in-order entry
sequence (trivially so when no left child exists and the guard would not
have fired). -/
theorem entries_rotateRightSub : ∀ t : Tree, entries (rotateRightSub t).1 = entries t := by
  intro t
  cases t with
  | nil => rfl
  | node k v l r h =>
    cases l with
    | nil => rfl
    | node lk lv ll lr lh =>
      simp [rotateRightSub, entries_calculateHeight, entries]

/-- The subtree surgery of `RotateLeft` preserves the in-order entry
sequence. -/
theorem entries_rotateLeftSub : ∀ t : Tree, entries (rotateLeftSub t).1 = entries t := by
  intro t
  cases t with
  | nil => rfl
  | node k v l r h =>
    cases r with
    | nil => rfl
    | node rk rv rl rr rh =>
      simp [rotateLeftSub, entries_calculateHeight, entries]

/-- C8: `RotateRight(node, parent)` on a node with a non-empty left child
makes the left child the new subtree root, moves the old left child's
right subtree into the node's left slot, makes the node the old left
child's right child, and recomputes the two rewired nodes' cached heights
child-before-new-parent (the node's fresh height feeds the new root's
recomputation) — the first conjunct is this exact shape equation.  The
in-order entry sequence of the subtree is unchanged by `RotateRight` and,
symmetrically, by `RotateLeft`.  When the new root's key lies on the same
side of the parent's key as the rotated slot (always the case under the
BST ordering), the parent rewiring re-targets exactly the followed slot
with the new subtree root, and the in-order sequence of the parent's whole
subtree is unchanged. -/
theorem rotation_spec :
    (∀ k v lk lv ll lr lh r h,
      rotateRightSub (.node k v (.node lk lv ll lr lh) r h)
        = (calculateHeight (.node lk lv ll (calculateHeight (.node k v lr r h)) lh),
           calculateHeight (.node k v lr r h))) ∧
    (∀ t, entries (rotateRightSub t).1 = entries t) ∧
    (∀ t, entries (rotateLeftSub t).1 = entries t) ∧
    (∀ (f : Frame) (nr resid : Tree),
      (f.dir = .left → keyOf nr < f.key) →
      (f.dir = .right → ¬ keyOf nr < f.key) →
      reattach nr resid f = (f, nr)) ∧
    (∀ (f : Frame) (sub : Tree),
      entries (plug f (rotateRightSub sub).1) = entries (plug f sub)) := by
  refine ⟨fun k v lk lv ll lr lh r h => rfl, entries_rotateRightSub, entries_rotateLeftSub,
    ?_, ?_⟩
  · intro f nr resid h1 h2
    cases hd : f.dir with
    | left => simp [reattach, hd, h1 hd]
    | right => simp [reattach, hd, h2 hd]
  · intro f sub
    cases hd : f.dir <;> simp [plug, hd, entries, entries_rotateRightSub]

/-- Witness for C8's parent-rewiring conjunct at a concrete input: the new
subtree root with key 3 sits below a parent frame with key 10 whose left
slot was descended, so the rewiring targets that same left slot. -/
theorem rotation_spec_witness :
    reattach (Tree.node 3 30 .nil .nil 0) Tree.nil
        { key := 10, value := 0, sib := Tree.nil, dir := Dir.left, hgt := 2 }
      = ({ key := 10, value := 0, sib := Tree.nil, dir := Dir.left, hgt := 2 },
         Tree.node 3 30 .nil .nil 0) :=
  rotation_spec.2.2.2.1 _ _ _ (fun _ => by decide) (fun hd => by exact absurd hd (by decide))

/-! ## C10 -/

/-- C10: on an empty tree `GetTreeHieight()` and `GetTreeBalanceFactor()`
both return `0`, and a tree holding exactly one entry (a root that is a
leaf of height 0) returns the same two values, so the two states cannot be
distinguished by these observations. -/
theorem empty_vs_singleton_height :
    getTreeHieight initialState = 0 ∧ getTreeBalanceFactor initialState = 0 ∧
    ∀ k v : Int,
      getTreeHieight (applyOp initialState (.addOp k v)) = 0 ∧
      getTreeBalanceFactor (applyOp initialState (.addOp k v)) = 0 := by
  refine ⟨rfl, rfl, fun k v => ?_⟩
  simp [applyOp, add, addDescend, unwind, rebalanceResult, calculateHeight, childHeight,
    getBalanceFactor, initialState, getTreeHieight, getTreeBalanceFactor]

end AVLTree
